import Mathlib

/-
Aeron `BitUtil.h`: a shallow embedding and its verification.

The C++ header `aeron-common/src/main/cpp/util/BitUtil.h` declares one constant and five
function templates over an integral `value_t`.  A `value_t` is modelled by its width and
signedness (`IntegralType`), a value of the type by the mathematical integer it denotes, and
each C++ operator by the two's-complement operation at the width of `value_t`: a result is
reduced modulo `2 ^ bits` and read back as a value of the type.  This is the arithmetic of the
instantiations at `int` and wider types, and for the narrower types it is the arithmetic of
every result that is converted back to `value_t`: reduction modulo `2 ^ bits` commutes with
`+`, `-`, `&` and `~`.  Two results are compared without being converted back.  One is
`value & 1` in `isEven`, in which only the lowest bit can be set, so that the width does not
matter.  The other is the identity inside `isPowerOfTwo`, which is therefore evaluated at the
promoted type (`IntegralType.promote`).  Signed overflow, which the C++ standard leaves
undefined, is modelled as the wrap-around that two's-complement hardware performs.
-/

namespace Aeron

/-- An integral `value_t`: its width in bits and whether it is signed. -/
structure IntegralType where
  bits : Nat
  isSigned : Bool
  bits_pos : 0 < bits

namespace IntegralType

/-- Smallest value of the type (`std::numeric_limits<value_t>::min()`). -/
def minValue (T : IntegralType) : Int :=
  if T.isSigned then -(2 ^ (T.bits - 1)) else 0

/-- Largest value of the type (`std::numeric_limits<value_t>::max()`). -/
def maxValue (T : IntegralType) : Int :=
  if T.isSigned then 2 ^ (T.bits - 1) - 1 else 2 ^ T.bits - 1

/-- The integer `x` is a value of the type. -/
def InRange (T : IntegralType) (x : Int) : Prop :=
  T.minValue ≤ x ∧ x ≤ T.maxValue

instance (T : IntegralType) (x : Int) : Decidable (T.InRange x) := by
  unfold InRange; infer_instance

/-- Two's-complement bit pattern of an integer at the width of the type. -/
def toBits (T : IntegralType) (x : Int) : Nat :=
  (x % 2 ^ T.bits).toNat

/-- Value denoted by a bit pattern: for a signed type a pattern with the top bit set
denotes a negative number. -/
def ofBits (T : IntegralType) (n : Nat) : Int :=
  if T.isSigned && decide (2 ^ (T.bits - 1) ≤ n) then (n : Int) - 2 ^ T.bits else (n : Int)

/-- Conversion of a mathematical result to the type (wrap-around). -/
def wrap (T : IntegralType) (x : Int) : Int :=
  T.ofBits (T.toBits x)

/-- The C++ operator `+` on `value_t`. -/
def add (T : IntegralType) (a b : Int) : Int := T.wrap (a + b)

/-- The C++ operator `-` on `value_t`. -/
def sub (T : IntegralType) (a b : Int) : Int := T.wrap (a - b)

/-- The C++ operator `&` on `value_t`: bitwise and of the bit patterns. -/
def and (T : IntegralType) (a b : Int) : Int :=
  T.ofBits (T.toBits a &&& T.toBits b)

/-- The C++ operator `~` on `value_t`: every one of the `bits` bits is flipped, which takes the
pattern `n` to `(2 ^ bits - 1) - n`. -/
def not (T : IntegralType) (a : Int) : Int :=
  T.ofBits (2 ^ T.bits - 1 - T.toBits a)

/-- Number of bits set in the representation of a value of the type. -/
def bitCount (T : IntegralType) (x : Int) : Nat :=
  ((List.range T.bits).filter fun i => (T.toBits x).testBit i).length

end IntegralType

/-- The type `std::uint8_t`. -/
def uint8_t : IntegralType := ⟨8, false, by decide⟩
/-- The type `std::int8_t`. -/
def int8_t : IntegralType := ⟨8, true, by decide⟩
/-- The type `std::uint32_t`. -/
def uint32_t : IntegralType := ⟨32, false, by decide⟩
/-- The type `std::int32_t`. -/
def int32_t : IntegralType := ⟨32, true, by decide⟩
/-- The type `int`, 32 bits wide on the platforms the library is built for. -/
def int_t : IntegralType := ⟨32, true, by decide⟩
/-- The type `std::uint64_t`. -/
def uint64_t : IntegralType := ⟨64, false, by decide⟩
/-- The type `std::int64_t`. -/
def int64_t : IntegralType := ⟨64, true, by decide⟩

/-- Integral promotion: the operands of an arithmetic or bitwise operator whose type is
narrower than `int` are converted to `int`, which represents all their values; a type at
least as wide as `int` is kept. -/
def IntegralType.promote (T : IntegralType) : IntegralType :=
  if T.bits < int_t.bits then int_t else T

namespace BitUtil

/-- Size of the data blocks used by the CPU cache sub-system in bytes
(`static const size_t CACHE_LINE_LENGTH = 64;`). -/
def CACHE_LINE_LENGTH : Nat := 64

/-- The second operand of `&&` in `isPowerOfTwo`, `(value & (~value + 1)) == value`.  Its
result is compared without being converted back to `value_t`, so the operators are those of
the promoted type. -/
def isPowerOfTwoIdentity (T : IntegralType) (value : Int) : Bool :=
  T.promote.and value (T.promote.add (T.promote.not value) 1) == value

/-- The source is `return value > 0 && ((value & (~value + 1)) == value);`. -/
def isPowerOfTwo (T : IntegralType) (value : Int) : Bool :=
  decide (value > 0) && isPowerOfTwoIdentity T value

/-- The source is `return (value + (alignment - 1)) & ~(alignment - 1);`. -/
def align (T : IntegralType) (value alignment : Int) : Int :=
  T.and (T.add value (T.sub alignment 1)) (T.not (T.sub alignment 1))

/-- The source is `return (value & 1) == 0;`. -/
def isEven (T : IntegralType) (value : Int) : Bool :=
  T.and value 1 == 0

/-- The source is `value_t next = current + 1; if (next == max) next = 0; return next;`. -/
def next (T : IntegralType) (current max : Int) : Int :=
  let next := T.add current 1
  if next == max then 0 else next

/-- The source is `if (0 == current) return max - 1; return current - 1;`. -/
def previous (T : IntegralType) (current max : Int) : Int :=
  if 0 == current then T.sub max 1 else T.sub current 1

end BitUtil

/-- Reference definition of the circular increment, following the words of the specification:
the successor of `current` modulo `max`, over the mathematical integers. -/
def nextModular (current max : Int) : Int := (current + 1) % max

/-- Reference definition of the circular decrement, following the words of the specification:
`current + max - 1` modulo `max`, over the mathematical integers. -/
def previousModular (current max : Int) : Int := (current + max - 1) % max

open BitUtil

namespace IntegralType

theorem two_pow_bits_eq (T : IntegralType) : 2 ^ T.bits = 2 * 2 ^ (T.bits - 1) := by
  have h := T.bits_pos
  obtain ⟨k, hk⟩ : ∃ k, T.bits = k + 1 := ⟨T.bits - 1, by omega⟩
  rw [hk, Nat.add_sub_cancel, pow_succ, Nat.mul_comm]

theorem toBits_lt (T : IntegralType) (x : Int) : T.toBits x < 2 ^ T.bits := by
  unfold toBits
  have hpos : (0 : Int) < 2 ^ T.bits := by positivity
  have h1 := Int.emod_nonneg x hpos.ne'
  have h2 := Int.emod_lt_of_pos x hpos
  have : ((x % 2 ^ T.bits).toNat : Int) < ((2 ^ T.bits : Nat) : Int) := by
    rw [Int.toNat_of_nonneg h1]; push_cast; exact h2
  exact_mod_cast this

theorem toBits_ofBits (T : IntegralType) {n : Nat} (h : n < 2 ^ T.bits) :
    T.toBits (T.ofBits n) = n := by
  have hn : ((n : Int)) < 2 ^ T.bits := by exact_mod_cast h
  unfold toBits ofBits
  split
  · rw [Int.sub_emod, Int.emod_self, sub_zero, Int.emod_emod_of_dvd _ (dvd_refl _),
      Int.emod_eq_of_lt (by omega) hn]
    simp
  · rw [Int.emod_eq_of_lt (by omega) hn]
    simp

theorem ofBits_toBits_emod (T : IntegralType) (x : Int) :
    T.ofBits (T.toBits x) % 2 ^ T.bits = x % 2 ^ T.bits := by
  have hpos : (0 : Int) < 2 ^ T.bits := by positivity
  have h1 := Int.emod_nonneg x hpos.ne'
  unfold ofBits toBits
  split
  · rw [Int.toNat_of_nonneg h1, Int.sub_emod, Int.emod_self, sub_zero,
      Int.emod_emod_of_dvd _ (dvd_refl _), Int.emod_emod_of_dvd _ (dvd_refl _)]
  · rw [Int.toNat_of_nonneg h1, Int.emod_emod_of_dvd _ (dvd_refl _)]

theorem ofBits_inRange (T : IntegralType) {n : Nat} (h : n < 2 ^ T.bits) :
    T.InRange (T.ofBits n) := by
  have h2 := T.two_pow_bits_eq
  have hn : ((n : Int)) < 2 ^ T.bits := by exact_mod_cast h
  have h2' : (2 : Int) ^ T.bits = 2 * 2 ^ (T.bits - 1) := by exact_mod_cast h2
  unfold InRange ofBits minValue maxValue
  cases hs : T.isSigned
  · simp; omega
  · by_cases hc : 2 ^ (T.bits - 1) ≤ n
    · have hc' : (2 : Int) ^ (T.bits - 1) ≤ n := by exact_mod_cast hc
      simp [hc]; omega
    · have hc' : (n : Int) < (2 : Int) ^ (T.bits - 1) := by
        have : n < 2 ^ (T.bits - 1) := by omega
        exact_mod_cast this
      simp [hc]; omega

theorem wrap_of_inRange (T : IntegralType) {x : Int} (h : T.InRange x) : T.wrap x = x := by
  have hy := T.ofBits_inRange (T.toBits_lt x)
  have hm := T.ofBits_toBits_emod x
  have h2 : (2 : Int) ^ T.bits = 2 * 2 ^ (T.bits - 1) := by exact_mod_cast T.two_pow_bits_eq
  have hpos : (0 : Int) < 2 ^ (T.bits - 1) := by positivity
  unfold wrap
  generalize T.ofBits (T.toBits x) = y at hy hm
  have hd : (2 : Int) ^ T.bits ∣ y - x := Int.ModEq.dvd (Int.ModEq.symm hm)
  have hab : |y - x| < 2 ^ T.bits := by
    unfold InRange minValue maxValue at h hy
    rw [abs_lt]
    cases hs : T.isSigned <;> simp [hs] at h hy <;> constructor <;> omega
  have := Int.eq_zero_of_abs_lt_dvd hd hab
  omega

theorem minValue_nonpos (T : IntegralType) : T.minValue ≤ 0 := by
  unfold minValue
  have hpos : (0 : Int) < 2 ^ (T.bits - 1) := by positivity
  split <;> omega

theorem maxValue_add_one_le (T : IntegralType) : T.maxValue + 1 ≤ 2 ^ T.bits := by
  have h2 : (2 : Int) ^ T.bits = 2 * 2 ^ (T.bits - 1) := by exact_mod_cast T.two_pow_bits_eq
  have hpos : (0 : Int) < 2 ^ (T.bits - 1) := by positivity
  unfold maxValue
  split <;> omega

theorem maxValue_nonneg (T : IntegralType) : 0 ≤ T.maxValue := by
  unfold maxValue
  have hpos : (0 : Int) < 2 ^ (T.bits - 1) := by positivity
  have hpos2 : (0 : Int) < 2 ^ T.bits := by positivity
  split <;> omega

theorem zero_inRange (T : IntegralType) : T.InRange 0 :=
  ⟨T.minValue_nonpos, T.maxValue_nonneg⟩

theorem ofBits_modEq (T : IntegralType) (n : Nat) : T.ofBits n ≡ n [ZMOD 2 ^ T.bits] := by
  unfold ofBits
  split
  · exact Int.modEq_iff_dvd.2 (by simp)
  · exact Int.ModEq.refl _

theorem toBits_modEq (T : IntegralType) (x : Int) : (T.toBits x : Int) ≡ x [ZMOD 2 ^ T.bits] := by
  have hpos : (0 : Int) < 2 ^ T.bits := by positivity
  unfold toBits
  rw [Int.toNat_of_nonneg (Int.emod_nonneg x hpos.ne')]
  exact Int.mod_modEq x _

theorem wrap_modEq (T : IntegralType) (x : Int) : T.wrap x ≡ x [ZMOD 2 ^ T.bits] :=
  (T.ofBits_modEq _).trans (T.toBits_modEq x)

theorem toBits_eq_of_modEq (T : IntegralType) {x : Int} {n : Nat} (hn : n < 2 ^ T.bits)
    (h : x ≡ n [ZMOD 2 ^ T.bits]) : T.toBits x = n := by
  have hn' : ((n : Int)) < 2 ^ T.bits := by exact_mod_cast hn
  unfold toBits
  rw [h, Int.emod_eq_of_lt (by omega) hn']
  simp

theorem toBits_natCast (T : IntegralType) {n : Nat} (hn : n < 2 ^ T.bits) :
    T.toBits (n : Int) = n :=
  T.toBits_eq_of_modEq hn (Int.ModEq.refl _)

theorem ofBits_natCast (T : IntegralType) {n : Nat} (hn : (n : Int) ≤ T.maxValue) :
    T.ofBits n = n := by
  have h2 : (2 : Int) ^ T.bits = 2 * 2 ^ (T.bits - 1) := by exact_mod_cast T.two_pow_bits_eq
  unfold maxValue at hn
  unfold ofBits
  cases hs : T.isSigned
  · simp
  · have : ¬ 2 ^ (T.bits - 1) ≤ n := by
      intro hc
      have hc' : (2 : Int) ^ (T.bits - 1) ≤ n := by exact_mod_cast hc
      simp [hs] at hn
      omega
    simp [this]

theorem ofBits_injOn (T : IntegralType) {n m : Nat} (hn : n < 2 ^ T.bits) (hm : m < 2 ^ T.bits)
    (h : T.ofBits n = T.ofBits m) : n = m := by
  rw [← T.toBits_ofBits hn, ← T.toBits_ofBits hm, h]

theorem toBits_add_not_one (T : IntegralType) (x : Int) :
    T.toBits (T.add (T.not x) 1) = (2 ^ T.bits - T.toBits x) % 2 ^ T.bits := by
  have hlt := T.toBits_lt x
  apply T.toBits_eq_of_modEq (Nat.mod_lt _ (by positivity))
  have e : ((2 ^ T.bits - 1 - T.toBits x : Nat) : Int) + 1 =
      ((2 ^ T.bits - T.toBits x : Nat) : Int) := by
    omega
  calc T.add (T.not x) 1 ≡ T.not x + 1 [ZMOD 2 ^ T.bits] := T.wrap_modEq _
    _ ≡ ((2 ^ T.bits - 1 - T.toBits x : Nat) : Int) + 1 [ZMOD 2 ^ T.bits] :=
        (T.ofBits_modEq _).add_right 1
    _ = ((2 ^ T.bits - T.toBits x : Nat) : Int) := e
    _ ≡ (((2 ^ T.bits - T.toBits x) % 2 ^ T.bits : Nat) : Int) [ZMOD 2 ^ T.bits] := by
        rw [Int.natCast_mod]; push_cast; exact (Int.mod_modEq _ _).symm

/-- The identity of `isPowerOfTwo`, read on bit patterns. -/
theorem and_neg_eq_self_iff (T : IntegralType) {v : Int} (hv : T.InRange v) :
    T.and v (T.add (T.not v) 1) = v ↔
      T.toBits v &&& (2 ^ T.bits - T.toBits v) % 2 ^ T.bits = T.toBits v := by
  have hlt := T.toBits_lt v
  unfold IntegralType.and
  rw [toBits_add_not_one]
  constructor
  · intro h
    have := congrArg T.toBits h
    rwa [T.toBits_ofBits (lt_of_le_of_lt Nat.and_le_left hlt)] at this
  · intro h
    rw [h]
    exact T.wrap_of_inRange hv

end IntegralType

theorem land_compl_self {n w : Nat} (h : n < 2 ^ w) : n &&& (2 ^ w - 1 - n) = 0 := by
  apply Nat.eq_of_testBit_eq
  intro i
  have e : 2 ^ w - 1 - n = 2 ^ w - (n + 1) := by omega
  rw [e, Nat.testBit_and, Nat.testBit_two_pow_sub_succ h]
  cases n.testBit i <;> simp

theorem land_neg_of_odd {n w : Nat} (hodd : n % 2 = 1) (h : n < 2 ^ w) :
    n &&& (2 ^ w - n) = 1 := by
  obtain ⟨u, rfl⟩ : ∃ u, w = u + 1 := by
    cases w with
    | zero => simp at h; omega
    | succ u => exact ⟨u, rfl⟩
  have hp : 2 ^ (u + 1) = 2 * 2 ^ u := by rw [pow_succ, Nat.mul_comm]
  apply Nat.eq_of_testBit_eq
  intro i
  cases i with
  | zero =>
    have : (2 ^ (u + 1) - n) % 2 = 1 := by omega
    simp [Nat.testBit_zero, hodd, this]
  | succ i =>
    have e : (2 ^ (u + 1) - n) / 2 = 2 ^ u - (n / 2 + 1) := by omega
    have hlt : n / 2 < 2 ^ u := by omega
    rw [Nat.testBit_and, Nat.testBit_succ, Nat.testBit_succ, Nat.testBit_succ, e,
      Nat.testBit_two_pow_sub_succ hlt]
    cases (n / 2).testBit i <;> simp

theorem land_two_mul (a b : Nat) : 2 * a &&& 2 * b = 2 * (a &&& b) := by
  apply Nat.eq_of_testBit_eq
  intro i
  cases i with
  | zero => simp [Nat.testBit_zero]
  | succ i =>
    rw [Nat.testBit_and, Nat.testBit_succ, Nat.testBit_succ, Nat.testBit_succ]
    simp

theorem land_neg_eq_self_iff {w : Nat} : ∀ {n : Nat}, 0 < n → n < 2 ^ w →
    (n &&& (2 ^ w - n) = n ↔ ∃ k, n = 2 ^ k) := by
  induction w with
  | zero => intro n h0 h; simp at h; omega
  | succ u ih =>
    intro n h0 h
    have hp : 2 ^ (u + 1) = 2 * 2 ^ u := by rw [pow_succ, Nat.mul_comm]
    rcases Nat.mod_two_eq_zero_or_one n with he | ho
    · obtain ⟨m, rfl⟩ : ∃ m, n = 2 * m := ⟨n / 2, by omega⟩
      have e : 2 ^ (u + 1) - 2 * m = 2 * (2 ^ u - m) := by omega
      rw [e, land_two_mul]
      have := @ih m (by omega) (by omega)
      constructor
      · intro hh
        obtain ⟨k, hk⟩ := this.1 (by omega)
        exact ⟨k + 1, by rw [hk, pow_succ, Nat.mul_comm]⟩
      · rintro ⟨k, hk⟩
        cases k with
        | zero => rw [pow_zero] at hk; omega
        | succ k =>
          have hm : m = 2 ^ k := by rw [pow_succ] at hk; omega
          have := this.2 ⟨k, hm⟩
          omega
    · rw [land_neg_of_odd ho h]
      constructor
      · intro hh; exact ⟨0, by simp [← hh]⟩
      · rintro ⟨k, hk⟩
        cases k with
        | zero => rw [pow_zero] at hk; omega
        | succ k => rw [pow_succ] at hk; omega

theorem land_compl_mask {x w k : Nat} (hk : k ≤ w) (hx : x < 2 ^ w) :
    x &&& (2 ^ w - 1 - (2 ^ k - 1)) = x - x % 2 ^ k := by
  have hkpos : 0 < 2 ^ k := Nat.pos_pow_of_pos _ (by decide)
  have hkw : 2 ^ k ≤ 2 ^ w := Nat.pow_le_pow_right (by decide) hk
  have e : 2 ^ w - 1 - (2 ^ k - 1) = 2 ^ w - ((2 ^ k - 1) + 1) := by omega
  have e2 : x - x % 2 ^ k = 2 ^ k * (x / 2 ^ k) := by
    have := Nat.div_add_mod x (2 ^ k); omega
  rw [e, e2]
  apply Nat.eq_of_testBit_eq
  intro i
  rw [Nat.testBit_and, Nat.testBit_two_pow_sub_succ (by omega), Nat.testBit_two_pow_sub_one,
    Nat.testBit_mul_pow_two, ← Nat.shiftRight_eq_div_pow, Nat.testBit_shiftRight]
  by_cases hik : i < k
  · simp [hik]
  · have hki : k ≤ i := by omega
    by_cases hiw : i < w
    · simp [hik, hiw, hki, Nat.add_sub_cancel' hki]
    · have : x.testBit i = false :=
        Nat.testBit_lt_two_pow (lt_of_lt_of_le hx (Nat.pow_le_pow_right (by decide) (by omega)))
      simp [hik, hiw, hki, Nat.add_sub_cancel' hki, this]

theorem length_filter_testBit_eq_one_iff {n w : Nat} (h : n < 2 ^ w) :
    ((List.range w).filter fun i => n.testBit i).length = 1 ↔ ∃ k, n = 2 ^ k := by
  constructor
  · intro hl
    obtain ⟨k, hk⟩ := List.length_eq_one.1 hl
    have hmem : ∀ i, (i < w ∧ n.testBit i = true) ↔ i = k := by
      intro i
      have : i ∈ (List.range w).filter (fun i => n.testBit i) ↔ i ∈ [k] := by rw [hk]
      simpa [List.mem_filter] using this
    refine ⟨k, Nat.eq_of_testBit_eq fun i => ?_⟩
    rw [Nat.testBit_two_pow]
    by_cases hik : k = i
    · subst hik
      simpa using ((hmem k).2 rfl).2
    · have : n.testBit i ≠ true := by
        intro ht
        have hiw : i < w := by
          by_contra hc
          have := Nat.testBit_lt_two_pow
            (lt_of_lt_of_le h (Nat.pow_le_pow_right (by decide) (Nat.le_of_not_lt hc)))
          simp [this] at ht
        exact hik ((hmem i).1 ⟨hiw, ht⟩).symm
      simpa [hik] using this
  · rintro ⟨k, rfl⟩
    have hk : k < w := (Nat.pow_lt_pow_iff_right (by decide)).1 h
    have e : ((List.range w).filter fun i => (2 ^ k).testBit i) =
        (List.range w).filter (fun i => i == k) := by
      apply List.filter_congr
      intro i _
      rw [Nat.testBit_two_pow]
      by_cases hik : k = i
      · simp [hik]
      · have : ¬ i = k := fun h => hik h.symm
        simp [hik, this]
    rw [e, ← List.countP_eq_length_filter, ← List.count]
    exact List.count_eq_one_of_mem (List.nodup_range w) (List.mem_range.2 hk)

theorem IntegralType.bitCount_eq_one_iff (T : IntegralType) (x : Int) :
    T.bitCount x = 1 ↔ ∃ k, T.toBits x = 2 ^ k :=
  length_filter_testBit_eq_one_iff (T.toBits_lt x)

namespace IntegralType

theorem natCast_toBits_of_nonneg (T : IntegralType) {v : Int} (hv : T.InRange v) (h0 : 0 ≤ v) :
    (T.toBits v : Int) = v := by
  obtain ⟨n, rfl⟩ := Int.eq_ofNat_of_zero_le h0
  have hlt : n < 2 ^ T.bits := by
    have h1 := hv.2
    have h2 := T.maxValue_add_one_le
    have : (n : Int) < ((2 ^ T.bits : Nat) : Int) := by push_cast; omega
    exact_mod_cast this
  rw [T.toBits_natCast hlt]

theorem toBits_zero (T : IntegralType) : T.toBits 0 = 0 := by
  simp [toBits]

theorem eq_zero_of_toBits_eq_zero (T : IntegralType) {v : Int} (hv : T.InRange v)
    (h : T.toBits v = 0) : v = 0 := by
  have := T.wrap_of_inRange hv
  rw [wrap, h] at this
  rw [← this]
  simp [ofBits]

/-- The identity `(v & (~v + 1)) == v` holds exactly at zero and at the one-bit patterns. -/
theorem and_neg_eq_self_iff_single (T : IntegralType) {v : Int} (hv : T.InRange v) :
    T.and v (T.add (T.not v) 1) = v ↔ v = 0 ∨ ∃ k, T.toBits v = 2 ^ k := by
  rw [T.and_neg_eq_self_iff hv]
  have hlt := T.toBits_lt v
  by_cases hz : T.toBits v = 0
  · have h0 := T.eq_zero_of_toBits_eq_zero hv hz
    rw [hz]
    simp [h0]
  · have hpos : 0 < T.toBits v := Nat.pos_of_ne_zero hz
    have hne : v ≠ 0 := fun h => hz (by rw [h, T.toBits_zero])
    rw [Nat.mod_eq_of_lt (by omega), land_neg_eq_self_iff hpos hlt]
    simp [hne]

end IntegralType

namespace IntegralType

theorem promote_eq_of_le (T : IntegralType) (h : int_t.bits ≤ T.bits) : T.promote = T := by
  unfold promote
  rw [if_neg (by omega)]

theorem promote_eq_of_lt (T : IntegralType) (h : T.bits < int_t.bits) : T.promote = int_t := by
  unfold promote
  rw [if_pos h]

theorem neg_two_pow_le_minValue (T : IntegralType) : -(2 ^ (T.bits - 1)) ≤ T.minValue := by
  unfold minValue
  have hpos : (0 : Int) < 2 ^ (T.bits - 1) := by positivity
  split <;> omega

/-- A value of a type narrower than `int` lies between `-2 ^ 30` and `2 ^ 31 - 1`. -/
theorem bounds_of_narrow (T : IntegralType) (h : T.bits < int_t.bits) {v : Int}
    (hv : T.InRange v) : -1073741824 ≤ v ∧ v ≤ 2147483647 := by
  have hb : T.bits ≤ 31 := by
    have : int_t.bits = 32 := rfl
    omega
  have h1 : (2 : Int) ^ T.bits ≤ 2 ^ 31 := pow_le_pow_right₀ (by decide) hb
  have h2 : (2 : Int) ^ (T.bits - 1) ≤ 2 ^ 30 := pow_le_pow_right₀ (by decide) (by omega)
  have h3 := T.neg_two_pow_le_minValue
  have h4 := T.maxValue_add_one_le
  have h5 := hv.1
  have h6 := hv.2
  norm_num at h1 h2
  constructor <;> omega

/-- Promotion preserves values: a value of the type is a value of the promoted type. -/
theorem inRange_promote (T : IntegralType) {v : Int} (hv : T.InRange v) :
    T.promote.InRange v := by
  by_cases h : T.bits < int_t.bits
  · rw [T.promote_eq_of_lt h]
    have hb := T.bounds_of_narrow h hv
    have hmin : int_t.minValue = -2147483648 := by decide
    have hmax : int_t.maxValue = 2147483647 := by decide
    unfold InRange
    rw [hmin, hmax]
    constructor <;> omega
  · rw [T.promote_eq_of_le (by omega)]
    exact hv

theorem exists_toBits_eq_pow_iff (T : IntegralType) {v : Int} (hv : T.InRange v)
    (h0 : 0 ≤ v) : (∃ k, T.toBits v = 2 ^ k) ↔ ∃ k : Nat, v = 2 ^ k := by
  have hc := T.natCast_toBits_of_nonneg hv h0
  constructor
  · rintro ⟨k, hk⟩
    refine ⟨k, ?_⟩
    rw [← hc, hk]
    push_cast; rfl
  · rintro ⟨k, hk⟩
    refine ⟨k, ?_⟩
    rw [hk] at hc ⊢
    exact_mod_cast hc

/-- The bit pattern at `int` of a negative value of a narrower type is no power of two. -/
theorem toBits_int_ne_pow_of_neg {v : Int} (h1 : -1073741824 ≤ v) (h2 : v < 0) (k : Nat) :
    int_t.toBits v ≠ 2 ^ k := by
  have hn : ((int_t.toBits v : Nat) : Int) = v % 4294967296 := by
    unfold toBits
    rw [Int.toNat_of_nonneg (Int.emod_nonneg _ (by positivity))]
    rfl
  have hlo : 2 ^ 31 < int_t.toBits v := by
    have : ((2 ^ 31 : Nat) : Int) < (int_t.toBits v : Int) := by
      rw [hn]; norm_num; omega
    exact_mod_cast this
  have hhi : int_t.toBits v < 2 ^ 32 := int_t.toBits_lt v
  intro hk
  rw [hk] at hlo hhi
  have a := (Nat.pow_lt_pow_iff_right (by decide)).1 hlo
  have b := (Nat.pow_lt_pow_iff_right (by decide)).1 hhi
  omega

end IntegralType

/-- The identity of `isPowerOfTwo` on the bit pattern at the promoted type. -/
theorem isPowerOfTwoIdentity_iff (T : IntegralType) {v : Int} (hv : T.InRange v) :
    isPowerOfTwoIdentity T v = true ↔ v = 0 ∨ ∃ k, T.promote.toBits v = 2 ^ k := by
  unfold isPowerOfTwoIdentity
  rw [beq_iff_eq, T.promote.and_neg_eq_self_iff_single (T.inRange_promote hv)]

theorem isPowerOfTwo_iff_exists (T : IntegralType) {v : Int} (hv : T.InRange v) :
    isPowerOfTwo T v = true ↔ ∃ k : Nat, v = 2 ^ k := by
  unfold isPowerOfTwo
  rw [Bool.and_eq_true, decide_eq_true_iff, isPowerOfTwoIdentity_iff T hv]
  constructor
  · rintro ⟨hpos, h⟩
    rcases h with h | h
    · omega
    · exact (T.promote.exists_toBits_eq_pow_iff (T.inRange_promote hv) hpos.le).1 h
  · rintro ⟨k, hk⟩
    have hpos : 0 < v := by rw [hk]; positivity
    exact ⟨hpos, Or.inr
      ((T.promote.exists_toBits_eq_pow_iff (T.inRange_promote hv) hpos.le).2 ⟨k, hk⟩)⟩

/-- C8: the cache-line size constant `CACHE_LINE_LENGTH` has the fixed value 64. -/
theorem CACHE_LINE_LENGTH_eq : CACHE_LINE_LENGTH = 64 := rfl

/-- C1: on every value `v` of an integral type, signed or unsigned, `isPowerOfTwo` returns
true exactly when `v` is strictly positive and has exactly one bit set, which is to say
exactly when `v = 2 ^ k` for some `k`; it is false at zero, at every negative value and at
every positive value that is not a power of two. -/
theorem isPowerOfTwo_spec (T : IntegralType) (v : Int) (hv : T.InRange v) :
    (isPowerOfTwo T v = true ↔ 0 < v ∧ T.bitCount v = 1) ∧
    (isPowerOfTwo T v = true ↔ ∃ k : Nat, v = 2 ^ k) ∧
    (v ≤ 0 → isPowerOfTwo T v = false) ∧
    (0 < v → (¬ ∃ k : Nat, v = 2 ^ k) → isPowerOfTwo T v = false) := by
  have hex := isPowerOfTwo_iff_exists T hv
  refine ⟨?_, hex, ?_, ?_⟩
  · rw [T.bitCount_eq_one_iff, hex]
    constructor
    · rintro ⟨k, hk⟩
      have hpos : 0 < v := by rw [hk]; positivity
      exact ⟨hpos, (T.exists_toBits_eq_pow_iff hv hpos.le).2 ⟨k, hk⟩⟩
    · rintro ⟨hpos, h⟩
      exact (T.exists_toBits_eq_pow_iff hv hpos.le).1 h
  · intro hle
    rw [← Bool.not_eq_true, hex]
    rintro ⟨k, hk⟩
    have : (0 : Int) < 2 ^ k := by positivity
    omega
  · intro _ hne
    rw [← Bool.not_eq_true, hex]
    exact hne

/-- Witness of C1 at `int32_t`: 16 is a power of two. -/
theorem isPowerOfTwo_spec_witness :
    int32_t.InRange 16 ∧ isPowerOfTwo int32_t 16 = true ∧ int32_t.bitCount 16 = 1 ∧
      isPowerOfTwo int32_t 18 = false :=
  ⟨by decide, ((isPowerOfTwo_spec int32_t 16 (by decide)).2.1).2 ⟨4, by decide⟩, by decide,
    by decide⟩

/-- C9, as amended: on every value `v` of an integral type the identity
`(v & (~v + 1)) == v` used inside `isPowerOfTwo`, evaluated as C++ evaluates it (operands of a
type narrower than `int` promoted to `int`), holds exactly when `v` is zero, or `v` has exactly
one bit set and is positive or of a type at least as wide as `int`.  `isPowerOfTwo` is the
conjunction of the guard `value > 0` with this identity; the identity holds at zero, and only
the guard makes `isPowerOfTwo` false there. -/
theorem and_neg_identity_spec (T : IntegralType) (v : Int) (hv : T.InRange v) :
    (isPowerOfTwoIdentity T v = true ↔
      v = 0 ∨ (T.bitCount v = 1 ∧ (0 < v ∨ int_t.bits ≤ T.bits))) ∧
    isPowerOfTwo T v = (decide (v > 0) && isPowerOfTwoIdentity T v) ∧
    isPowerOfTwoIdentity T 0 = true ∧ decide ((0 : Int) > 0) = false ∧
    isPowerOfTwo T 0 = false := by
  refine ⟨?_, rfl, (isPowerOfTwoIdentity_iff T T.zero_inRange).2 (Or.inl rfl), by decide, ?_⟩
  · rw [isPowerOfTwoIdentity_iff T hv, T.bitCount_eq_one_iff]
    by_cases hw : int_t.bits ≤ T.bits
    · rw [T.promote_eq_of_le hw]
      constructor
      · rintro (h | h)
        · exact Or.inl h
        · exact Or.inr ⟨h, Or.inr hw⟩
      · rintro (h | ⟨h, _⟩)
        · exact Or.inl h
        · exact Or.inr h
    · have hn : T.bits < int_t.bits := by omega
      have hb := T.bounds_of_narrow hn hv
      have hvP := T.inRange_promote hv
      rw [T.promote_eq_of_lt hn] at hvP ⊢
      constructor
      · rintro (h | ⟨k, hk⟩)
        · exact Or.inl h
        · by_cases h0 : 0 ≤ v
          · have hex := (int_t.exists_toBits_eq_pow_iff hvP h0).1 ⟨k, hk⟩
            have hpos : 0 < v := by obtain ⟨j, hj⟩ := hex; rw [hj]; positivity
            exact Or.inr ⟨(T.exists_toBits_eq_pow_iff hv h0).2 hex, Or.inl hpos⟩
          · exact absurd hk (IntegralType.toBits_int_ne_pow_of_neg hb.1 (by omega) k)
      · rintro (h | ⟨h, hp | hp⟩)
        · exact Or.inl h
        · exact Or.inr ((int_t.exists_toBits_eq_pow_iff hvP hp.le).2
            ((T.exists_toBits_eq_pow_iff hv hp.le).1 h))
        · exact absurd hp hw
  · simp [isPowerOfTwo]

/-- Witness of C9 at `int32_t` and at `int8_t`: the identity holds at 16, which has one bit
set. -/
theorem and_neg_identity_spec_witness :
    int32_t.InRange 16 ∧ isPowerOfTwoIdentity int32_t 16 = true ∧
      int8_t.InRange 16 ∧ isPowerOfTwoIdentity int8_t 16 = true :=
  ⟨by decide,
    ((and_neg_identity_spec int32_t 16 (by decide)).1).2
      (Or.inr ⟨by decide, Or.inl (by decide)⟩),
    by decide,
    ((and_neg_identity_spec int8_t 16 (by decide)).1).2
      (Or.inr ⟨by decide, Or.inl (by decide)⟩)⟩

/-- C9 as stated fails at the minimum of a signed type narrower than `int`: the value `-128`
of `int8_t` has exactly one bit set, yet the identity, computed in `int` as
`-128 & (~(-128) + 1) = -128 & 128 = 128`, is false. -/
theorem and_neg_identity_counterexample :
    int8_t.InRange (-128) ∧ int8_t.bitCount (-128) = 1 ∧
      int_t.and (-128) (int_t.add (int_t.not (-128)) 1) = 128 ∧
      isPowerOfTwoIdentity int8_t (-128) = false ∧
      ¬ (isPowerOfTwoIdentity int8_t (-128) = true ↔
          ((-128 : Int) = 0 ∨ int8_t.bitCount (-128) = 1)) :=
  ⟨by decide, by decide, by decide, by decide, by decide⟩

namespace IntegralType

theorem toBits_one (T : IntegralType) : T.toBits 1 = 1 := by
  have h : 1 < 2 ^ T.bits := Nat.one_lt_two_pow (Nat.pos_iff_ne_zero.1 T.bits_pos)
  exact_mod_cast T.toBits_natCast h

theorem toBits_mod_two (T : IntegralType) (v : Int) : ((T.toBits v % 2 : Nat) : Int) = v % 2 := by
  have hd : (2 : Int) ∣ 2 ^ T.bits := dvd_pow_self 2 (Nat.pos_iff_ne_zero.1 T.bits_pos)
  have h := (T.toBits_modEq v).of_dvd hd
  rw [Int.natCast_mod]
  exact h

theorem and_one_eq_zero_iff (T : IntegralType) (v : Int) :
    T.and v 1 = 0 ↔ T.toBits v % 2 = 0 := by
  unfold IntegralType.and
  rw [T.toBits_one, Nat.and_one_is_mod]
  have hlt : T.toBits v % 2 < 2 ^ T.bits :=
    lt_of_lt_of_le (Nat.mod_lt _ (by decide)) (by
      have := Nat.one_lt_two_pow (Nat.pos_iff_ne_zero.1 T.bits_pos); omega)
  constructor
  · intro h
    have := congrArg T.toBits h
    rwa [T.toBits_ofBits hlt, T.toBits_zero] at this
  · intro h
    rw [h]
    simp [ofBits]

end IntegralType

/-- C3: on every integer `v`, zero and negative values included, `isEven` returns
`v mod 2 == 0` (for the flooring and for the C++ truncating remainder alike), and it is true
exactly when the least significant bit of the representation of `v` is zero. -/
theorem isEven_spec (T : IntegralType) (v : Int) :
    isEven T v = decide (v % 2 = 0) ∧ isEven T v = decide (Int.tmod v 2 = 0) ∧
    (isEven T v = true ↔ (T.toBits v).testBit 0 = false) := by
  have key : isEven T v = true ↔ T.toBits v % 2 = 0 := by
    unfold isEven
    rw [beq_iff_eq, T.and_one_eq_zero_iff]
  have hm := T.toBits_mod_two v
  have k1 : isEven T v = true ↔ v % 2 = 0 := by rw [key]; omega
  have k2 : v % 2 = 0 ↔ Int.tmod v 2 = 0 := by
    rw [← Int.dvd_iff_emod_eq_zero, Int.dvd_iff_tmod_eq_zero]
  refine ⟨?_, ?_, ?_⟩
  · rw [Bool.eq_iff_iff, decide_eq_true_iff]; exact k1
  · rw [Bool.eq_iff_iff, decide_eq_true_iff]; exact k1.trans k2
  · rw [key, Nat.testBit_zero]
    simp

theorem IntegralType.inRange_of_nonneg_of_le (T : IntegralType) {x m : Int} (hm : T.InRange m)
    (h0 : 0 ≤ x) (hx : x ≤ m) : T.InRange x :=
  ⟨le_trans T.minValue_nonpos h0, le_trans hx hm.2⟩

theorem next_eq_ite (T : IntegralType) {current max : Int} (hm : T.InRange max)
    (h0 : 0 ≤ current) (hc : current < max) :
    next T current max = if current + 1 = max then 0 else current + 1 := by
  have hr : T.InRange (current + 1) := T.inRange_of_nonneg_of_le hm (by omega) (by omega)
  simp only [next, IntegralType.add, T.wrap_of_inRange hr, beq_iff_eq]

theorem previous_eq_ite (T : IntegralType) {current max : Int} (hm : T.InRange max)
    (h1 : 1 ≤ max) (h0 : 0 ≤ current) (hc : current < max) :
    previous T current max = if current = 0 then max - 1 else current - 1 := by
  have hr1 : T.InRange (max - 1) := T.inRange_of_nonneg_of_le hm (by omega) (by omega)
  unfold previous IntegralType.sub
  by_cases hz : current = 0
  · have : (0 == current) = true := by rw [beq_iff_eq]; exact hz.symm
    rw [if_pos this, if_pos hz, T.wrap_of_inRange hr1]
  · have hr : T.InRange (current - 1) := T.inRange_of_nonneg_of_le hm (by omega) (by omega)
    have : ¬ (0 == current) = true := by rw [beq_iff_eq]; exact fun h => hz h.symm
    rw [if_neg this, if_neg hz, T.wrap_of_inRange hr]

theorem iterate_next_eq (T : IntegralType) {current max : Int} (hm : T.InRange max)
    (h0 : 0 ≤ current) (hc : current < max) (k : Nat) :
    (fun c => next T c max)^[k] current = (current + k) % max := by
  have hpos : 0 < max := by omega
  induction k with
  | zero => simp [Int.emod_eq_of_lt h0 hc]
  | succ k ih =>
    rw [Function.iterate_succ_apply', ih]
    have hy0 := Int.emod_nonneg (current + k) hpos.ne'
    have hylt := Int.emod_lt_of_pos (current + k) hpos
    have e : (current + ((k + 1 : Nat) : Int)) % max = ((current + k) % max + 1) % max := by
      push_cast
      rw [← add_assoc, Int.emod_add_emod]
    rw [e]
    generalize (current + (k : Int)) % max = y at hy0 hylt
    rw [next_eq_ite T hm hy0 hylt]
    split
    · next h => rw [h, Int.emod_self]
    · next h => rw [Int.emod_eq_of_lt (by omega) (by omega)]

/-- C4: for `max ≥ 1` and `current` in `[0, max)`, `next` returns `current + 1` unless that
equals `max`, in which case it returns `0`. -/
theorem next_spec (T : IntegralType) (current max : Int) (hm : T.InRange max) (_h1 : 1 ≤ max)
    (h0 : 0 ≤ current) (hc : current < max) :
    next T current max = if current + 1 ≠ max then current + 1 else 0 := by
  rw [next_eq_ite T hm h0 hc]
  split <;> simp_all

/-- Witness of C4 at `int32_t`: `next(2, 6) == 3` and `next(5, 6) == 0`. -/
theorem next_spec_witness :
    int32_t.InRange 6 ∧ next int32_t 2 6 = 3 ∧ next int32_t 5 6 = 0 :=
  ⟨by decide, next_spec int32_t 2 6 (by decide) (by decide) (by decide) (by decide),
    next_spec int32_t 5 6 (by decide) (by decide) (by decide) (by decide)⟩

/-- C5: for `max ≥ 1` and `current` in `[0, max)`, `previous` returns `current - 1` when
`current` is not zero and `max - 1` when it is. -/
theorem previous_spec (T : IntegralType) (current max : Int) (hm : T.InRange max)
    (h1 : 1 ≤ max) (h0 : 0 ≤ current) (hc : current < max) :
    previous T current max = if current ≠ 0 then current - 1 else max - 1 := by
  rw [previous_eq_ite T hm h1 h0 hc]
  split <;> simp_all

/-- Witness of C5 at `int32_t`: `previous(3, 6) == 2` and `previous(0, 6) == 5`. -/
theorem previous_spec_witness :
    int32_t.InRange 6 ∧ previous int32_t 3 6 = 2 ∧ previous int32_t 0 6 = 5 :=
  ⟨by decide, previous_spec int32_t 3 6 (by decide) (by decide) (by decide) (by decide),
    previous_spec int32_t 0 6 (by decide) (by decide) (by decide) (by decide)⟩

/-- C6: for `max ≥ 1` and `current` in `[0, max)`, applying `next(., max)` exactly `max` times
from `current` returns `current`, and the orbit is a cycle of length `max` over `[0, max)`:
the `k`-th iterate is `(current + k) mod max`, it stays in `[0, max)`, it does not return to
`current` after any `k` with `0 < k < max`, and it reaches every index of `[0, max)` within
fewer than `max` steps. -/
theorem iterate_next_max (T : IntegralType) (current max : Int) (hm : T.InRange max)
    (h1 : 1 ≤ max) (h0 : 0 ≤ current) (hc : current < max) :
    (fun c => next T c max)^[max.toNat] current = current ∧
      (∀ k : Nat, (fun c => next T c max)^[k] current = (current + k) % max) ∧
      (∀ k : Nat, 0 ≤ (fun c => next T c max)^[k] current ∧
        (fun c => next T c max)^[k] current < max) ∧
      (∀ k : Nat, 0 < k → (k : Int) < max →
        (fun c => next T c max)^[k] current ≠ current) ∧
      (∀ j : Int, 0 ≤ j → j < max →
        ∃ k : Nat, (k : Int) < max ∧ (fun c => next T c max)^[k] current = j) := by
  have hpos : 0 < max := by omega
  have hit := iterate_next_eq T hm h0 hc
  refine ⟨?_, hit, ?_, ?_, ?_⟩
  · rw [hit, Int.toNat_of_nonneg (by omega), Int.add_emod_self, Int.emod_eq_of_lt h0 hc]
  · intro k
    rw [hit]
    exact ⟨Int.emod_nonneg _ hpos.ne', Int.emod_lt_of_pos _ hpos⟩
  · intro k hk0 hkm
    rw [hit]
    have hk0' : (0 : Int) < k := by exact_mod_cast hk0
    by_cases hlt : current + k < max
    · rw [Int.emod_eq_of_lt (by omega) hlt]; omega
    · have e : current + (k : Int) = (current + k - max) + max := by ring
      rw [e, Int.add_emod_self, Int.emod_eq_of_lt (by omega) (by omega)]
      omega
  · intro j hj0 hjm
    have hr0 := Int.emod_nonneg (j - current) hpos.ne'
    have hrlt := Int.emod_lt_of_pos (j - current) hpos
    refine ⟨((j - current) % max).toNat, ?_, ?_⟩
    · rw [Int.toNat_of_nonneg hr0]; exact hrlt
    · rw [hit, Int.toNat_of_nonneg hr0, Int.add_emod_emod]
      have e : current + (j - current) = j := by ring
      rw [e, Int.emod_eq_of_lt hj0 hjm]

/-- Witness of C6 at `int32_t`: six steps of `next(., 6)` from 4 return to 4, two steps do
not, and index 1 is reached in three steps. -/
theorem iterate_next_max_witness :
    int32_t.InRange 6 ∧ (fun c => next int32_t c 6)^[(6 : Int).toNat] 4 = 4 ∧
      (fun c => next int32_t c 6)^[2] 4 ≠ 4 ∧ (fun c => next int32_t c 6)^[3] 4 = 1 :=
  ⟨by decide,
    (iterate_next_max int32_t 4 6 (by decide) (by decide) (by decide) (by decide)).1,
    (iterate_next_max int32_t 4 6 (by decide) (by decide) (by decide) (by decide)).2.2.2.1 2
      (by decide) (by decide),
    by decide⟩

/-- C7: for `max ≥ 1` and `current` in `[0, max)`, `previous(next(current, max), max)` is
`current`. -/
theorem previous_next (T : IntegralType) (current max : Int) (hm : T.InRange max)
    (h1 : 1 ≤ max) (h0 : 0 ≤ current) (hc : current < max) :
    previous T (next T current max) max = current := by
  rw [next_eq_ite T hm h0 hc]
  split
  · rw [previous_eq_ite T hm h1 (le_refl 0) (by omega), if_pos rfl]; omega
  · rw [previous_eq_ite T hm h1 (by omega) (by omega), if_neg (by omega)]; omega

/-- Witness of C7 at `int32_t`: `previous(next(5, 6), 6) == 5`, through the wrap to 0. -/
theorem previous_next_witness :
    int32_t.InRange 6 ∧ previous int32_t (next int32_t 5 6) 6 = 5 :=
  ⟨by decide, previous_next int32_t 5 6 (by decide) (by decide) (by decide) (by decide)⟩

namespace IntegralType

theorem toBits_not (T : IntegralType) (x : Int) :
    T.toBits (T.not x) = 2 ^ T.bits - 1 - T.toBits x := by
  have hpos : 0 < 2 ^ T.bits := by positivity
  exact T.toBits_ofBits (by omega)

theorem lt_two_pow_of_natCast_le (T : IntegralType) {n : Nat} (h : (n : Int) ≤ T.maxValue) :
    n < 2 ^ T.bits := by
  have h2 := T.maxValue_add_one_le
  have : (n : Int) < ((2 ^ T.bits : Nat) : Int) := by push_cast; omega
  exact_mod_cast this

end IntegralType

/-- Without overflow of `value + (alignment - 1)`, `align` at a power-of-two alignment clears
the remainder of that sum. -/
theorem align_eq_sub_emod (T : IntegralType) {v a : Int} (ha : T.InRange a)
    (hpow : ∃ k : Nat, a = 2 ^ k) (hv0 : 0 ≤ v) (hno : v + (a - 1) ≤ T.maxValue) :
    align T v a = (v + (a - 1)) - (v + (a - 1)) % a := by
  obtain ⟨k, rfl⟩ := hpow
  have hapos : (0 : Int) < 2 ^ k := by positivity
  have hkpos : 0 < 2 ^ k := by positivity
  have hr1 : T.InRange ((2 : Int) ^ k - 1) := T.inRange_of_nonneg_of_le ha (by omega) (by omega)
  have hrx : T.InRange (v + ((2 : Int) ^ k - 1)) := ⟨le_trans T.minValue_nonpos (by omega), hno⟩
  obtain ⟨x, hx⟩ := Int.eq_ofNat_of_zero_le (show (0 : Int) ≤ v + (2 ^ k - 1) by omega)
  have hxle : (x : Int) ≤ T.maxValue := by rw [← hx]; exact hno
  have hxlt : x < 2 ^ T.bits := T.lt_two_pow_of_natCast_le hxle
  have hm1 : ((2 : Int) ^ k - 1) = ((2 ^ k - 1 : Nat) : Int) := by
    rw [Nat.cast_sub hkpos]; push_cast; rfl
  have hklt : 2 ^ k < 2 ^ T.bits := by
    apply T.lt_two_pow_of_natCast_le
    have := ha.2
    exact_mod_cast this
  have hkw : k ≤ T.bits := le_of_lt ((Nat.pow_lt_pow_iff_right (by decide)).1 hklt)
  have hb1 : T.toBits ((2 : Int) ^ k - 1) = 2 ^ k - 1 := by
    rw [hm1]; exact T.toBits_natCast (by omega)
  unfold align
  simp only [IntegralType.sub, IntegralType.add, T.wrap_of_inRange hr1, T.wrap_of_inRange hrx]
  unfold IntegralType.and
  rw [T.toBits_not, hb1, hx, T.toBits_natCast hxlt, land_compl_mask hkw hxlt]
  have hle : x - x % 2 ^ k ≤ x := Nat.sub_le _ _
  rw [T.ofBits_natCast (le_trans (by exact_mod_cast hle) hxle),
    Nat.cast_sub (Nat.mod_le _ _)]
  push_cast
  rfl

/-- C2, as amended: for a power-of-two alignment `a > 0` of the type and `v ≥ 0` such that
`v + (a - 1)` is representable in the type (no overflow), `align(v, a)` is the smallest
multiple of `a` that is at least `v`: it is `0` modulo `a`, at least `v` and below `v + a`. -/
theorem align_spec (T : IntegralType) (v a : Int) (ha : T.InRange a)
    (hpow : ∃ k : Nat, a = 2 ^ k) (hv0 : 0 ≤ v) (hno : v + (a - 1) ≤ T.maxValue) :
    align T v a % a = 0 ∧ v ≤ align T v a ∧ align T v a < v + a ∧
      IsLeast {m : Int | a ∣ m ∧ v ≤ m} (align T v a) := by
  have hapos : 0 < a := by obtain ⟨k, rfl⟩ := hpow; positivity
  rw [align_eq_sub_emod T ha hpow hv0 hno]
  have hm0 := Int.emod_nonneg (v + (a - 1)) hapos.ne'
  have hmlt := Int.emod_lt_of_pos (v + (a - 1)) hapos
  have hdvd : a ∣ (v + (a - 1)) - (v + (a - 1)) % a := Int.dvd_sub_of_emod_eq rfl
  refine ⟨Int.emod_eq_zero_of_dvd hdvd, by omega, by omega, ⟨hdvd, by omega⟩, ?_⟩
  rintro m ⟨hmd, hvm⟩
  by_contra hlt
  have hpos : 0 < (v + (a - 1)) - (v + (a - 1)) % a - m := by omega
  have := Int.le_of_dvd hpos (Int.dvd_sub hdvd hmd)
  omega

/-- Witness of C2 at `uint32_t`: `align(13, 8) == 16`. -/
theorem align_spec_witness :
    uint32_t.InRange 8 ∧ align uint32_t 13 8 = 16 ∧ align uint32_t 13 8 % 8 = 0 ∧
      IsLeast {m : Int | (8 : Int) ∣ m ∧ 13 ≤ m} (align uint32_t 13 8) :=
  ⟨by decide, by decide,
    (align_spec uint32_t 13 8 (by decide) ⟨3, by decide⟩ (by decide) (by decide)).1,
    (align_spec uint32_t 13 8 (by decide) ⟨3, by decide⟩ (by decide) (by decide)).2.2.2⟩

/-- C2 as stated fails where `value + (alignment - 1)` overflows: at `uint32_t`,
`align(4294967295, 8)` is `0`, which is below the value. -/
theorem align_overflow_counterexample :
    uint32_t.InRange 4294967295 ∧ uint32_t.InRange 8 ∧ (0 : Int) ≤ 4294967295 ∧
      (∃ k : Nat, (8 : Int) = 2 ^ k) ∧ align uint32_t 4294967295 8 = 0 ∧
      ¬ (align uint32_t 4294967295 8 % 8 = 0 ∧ 4294967295 ≤ align uint32_t 4294967295 8 ∧
          align uint32_t 4294967295 8 < 4294967295 + 8) :=
  ⟨by decide, by decide, by decide, ⟨3, by decide⟩, by decide, by decide⟩

/-- At the value 1, `align` returns the lowest set bit of the alignment. -/
theorem align_one_ne (T : IntegralType) {a : Int} (ha : T.InRange a) (hpos : 0 < a)
    (hnp : ¬ ∃ k : Nat, a = 2 ^ k) : align T 1 a ≠ a := by
  obtain ⟨n, rfl⟩ := Int.eq_ofNat_of_zero_le hpos.le
  have hnpos : 0 < n := by exact_mod_cast hpos
  have hnlt : n < 2 ^ T.bits := T.lt_two_pow_of_natCast_le ha.2
  have hr1 : T.InRange ((n : Int) - 1) := T.inRange_of_nonneg_of_le ha (by omega) (by omega)
  have hm1 : ((n : Int) - 1) = ((n - 1 : Nat) : Int) := by omega
  have hb1 : T.toBits ((n : Int) - 1) = n - 1 := by
    rw [hm1]; exact T.toBits_natCast (by omega)
  have e1 : (1 : Int) + ((n : Int) - 1) = n := by ring
  have e2 : 2 ^ T.bits - 1 - (n - 1) = 2 ^ T.bits - n := by omega
  intro h
  unfold align at h
  simp only [IntegralType.sub, IntegralType.add, T.wrap_of_inRange hr1, e1,
    T.wrap_of_inRange ha] at h
  unfold IntegralType.and at h
  rw [T.toBits_not, hb1, T.toBits_natCast hnlt, e2] at h
  have h' := congrArg T.toBits h
  rw [T.toBits_ofBits (lt_of_le_of_lt Nat.and_le_left hnlt), T.toBits_natCast hnlt] at h'
  obtain ⟨k, hk⟩ := (land_neg_eq_self_iff hnpos hnlt).1 h'
  exact hnp ⟨k, by rw [hk]; push_cast; rfl⟩

/-- C10: the masking arithmetic of `align` is correct only for power-of-two alignments: for
every positive alignment `a` of the type that is not a power of two there is a value `v ≥ 0`
of the type at which `align(v, a)` is not the smallest multiple of `a` that is at least `v`. -/
theorem align_not_smallest_of_not_pow (T : IntegralType) (a : Int) (ha : T.InRange a)
    (hpos : 0 < a) (hnp : ¬ ∃ k : Nat, a = 2 ^ k) :
    ∃ v : Int, 0 ≤ v ∧ T.InRange v ∧
      ¬ IsLeast {m : Int | a ∣ m ∧ v ≤ m} (align T v a) := by
  refine ⟨1, by decide, T.inRange_of_nonneg_of_le ha (by decide) (by omega), ?_⟩
  intro hl
  have hmem : a ∈ {m : Int | a ∣ m ∧ (1 : Int) ≤ m} := ⟨dvd_refl a, by omega⟩
  have h1 := hl.2 hmem
  have h2 := Int.le_of_dvd (by have := hl.1.2; omega) hl.1.1
  exact align_one_ne T ha hpos hnp (le_antisymm h1 h2)

/-- Witness of C10 at `int32_t` and the alignment 6: `align(1, 6) == 2` and
`align(7, 6) == 8`, neither a multiple of 6. -/
theorem align_not_smallest_of_not_pow_witness :
    int32_t.InRange 6 ∧ align int32_t 1 6 = 2 ∧ align int32_t 7 6 = 8 ∧
      ∃ v : Int, 0 ≤ v ∧ int32_t.InRange v ∧
        ¬ IsLeast {m : Int | (6 : Int) ∣ m ∧ v ≤ m} (align int32_t v 6) :=
  ⟨by decide, by decide, by decide,
    align_not_smallest_of_not_pow int32_t 6 (by decide) (by decide) (by
      rintro ⟨k, hk⟩
      have h3 : k < 3 := by
        by_contra hc
        have : (2 : Int) ^ 3 ≤ 2 ^ k := pow_le_pow_right₀ (by decide) (by omega)
        omega
      interval_cases k <;> omega)⟩

namespace IntegralType

theorem toBits_wrap (T : IntegralType) (x : Int) : T.toBits (T.wrap x) = T.toBits x :=
  T.toBits_ofBits (T.toBits_lt x)

theorem ofBits_zero (T : IntegralType) : T.ofBits 0 = 0 := by
  simp [ofBits]

theorem toBits_neg_one (T : IntegralType) : T.toBits (-1) = 2 ^ T.bits - 1 := by
  have hpos : 0 < 2 ^ T.bits := by positivity
  apply T.toBits_eq_of_modEq (by omega)
  rw [Nat.cast_sub hpos]
  push_cast
  exact Int.modEq_iff_dvd.2 (by simp)

end IntegralType

/-- C11: with the alignment zero, `align` returns `0` at every value `v` (the mask
`~(0 - 1)` is zero); at every `v > 0` the result is below `v`.  The function is total:
it returns this value and signals nothing. -/
theorem align_zero_alignment (T : IntegralType) (v : Int) :
    align T v 0 = 0 ∧ (0 < v → align T v 0 < v) := by
  have h : align T v 0 = 0 := by
    unfold align IntegralType.and
    rw [T.toBits_not]
    simp only [IntegralType.sub, zero_sub, T.toBits_wrap, T.toBits_neg_one, Nat.sub_self,
      Nat.and_zero, T.ofBits_zero]
  exact ⟨h, fun hv => by rw [h]; exact hv⟩

/-- Witness of C11 at `uint32_t`: `align(13, 0)` is `0`, below 13. -/
theorem align_zero_alignment_witness :
    align uint32_t 13 0 = 0 ∧ align uint32_t 13 0 < 13 :=
  ⟨(align_zero_alignment uint32_t 13).1, (align_zero_alignment uint32_t 13).2 (by decide)⟩

/-- C15: for `max ≥ 1` and `current` in `[0, max)`, both `next(current, max)` and
`previous(current, max)` lie in `[0, max)`. -/
theorem next_previous_mem_range (T : IntegralType) (current max : Int) (hm : T.InRange max)
    (h1 : 1 ≤ max) (h0 : 0 ≤ current) (hc : current < max) :
    (0 ≤ next T current max ∧ next T current max < max) ∧
      (0 ≤ previous T current max ∧ previous T current max < max) := by
  rw [next_eq_ite T hm h0 hc, previous_eq_ite T hm h1 h0 hc]
  constructor
  · split <;> constructor <;> omega
  · split <;> constructor <;> omega

/-- Witness of C15 at `int32_t` with `max = 6`, at the wrapping index 5. -/
theorem next_previous_mem_range_witness :
    int32_t.InRange 6 ∧ (0 ≤ next int32_t 5 6 ∧ next int32_t 5 6 < 6) ∧
      (0 ≤ previous int32_t 5 6 ∧ previous int32_t 5 6 < 6) :=
  ⟨by decide,
    next_previous_mem_range int32_t 5 6 (by decide) (by decide) (by decide) (by decide)⟩

/-- C16: for `max ≥ 1` and `current` in `[0, max)`, `next(previous(current, max), max)` is
`current`; with `previous(next(current, max), max) == current` the two operations are
mutually inverse bijections of `[0, max)`. -/
theorem next_previous (T : IntegralType) (current max : Int) (hm : T.InRange max)
    (h1 : 1 ≤ max) (h0 : 0 ≤ current) (hc : current < max) :
    next T (previous T current max) max = current ∧
      previous T (next T current max) max = current ∧
      Set.BijOn (fun c => next T c max) (Set.Ico 0 max) (Set.Ico 0 max) ∧
      Set.BijOn (fun c => previous T c max) (Set.Ico 0 max) (Set.Ico 0 max) ∧
      Set.InvOn (fun c => previous T c max) (fun c => next T c max)
        (Set.Ico 0 max) (Set.Ico 0 max) := by
  have hnp : ∀ c : Int, 0 ≤ c → c < max → next T (previous T c max) max = c := by
    intro c hc0 hcm
    rw [previous_eq_ite T hm h1 hc0 hcm]
    split
    · rw [next_eq_ite T hm (by omega) (by omega), if_pos (by omega)]; omega
    · rw [next_eq_ite T hm (by omega) (by omega), if_neg (by omega)]; omega
  have hpn : ∀ c : Int, 0 ≤ c → c < max → previous T (next T c max) max = c := by
    intro c hc0 hcm
    rw [next_eq_ite T hm hc0 hcm]
    split
    · rw [previous_eq_ite T hm h1 (le_refl 0) (by omega), if_pos rfl]; omega
    · rw [previous_eq_ite T hm h1 (by omega) (by omega), if_neg (by omega)]; omega
  have hnm : Set.MapsTo (fun c => next T c max) (Set.Ico 0 max) (Set.Ico 0 max) := by
    rintro c ⟨hc0, hcm⟩
    show 0 ≤ next T c max ∧ next T c max < max
    rw [next_eq_ite T hm hc0 hcm]
    split <;> constructor <;> omega
  have hpm : Set.MapsTo (fun c => previous T c max) (Set.Ico 0 max) (Set.Ico 0 max) := by
    rintro c ⟨hc0, hcm⟩
    show 0 ≤ previous T c max ∧ previous T c max < max
    rw [previous_eq_ite T hm h1 hc0 hcm]
    split <;> constructor <;> omega
  have hinv : Set.InvOn (fun c => previous T c max) (fun c => next T c max)
      (Set.Ico 0 max) (Set.Ico 0 max) :=
    ⟨fun c hc => hpn c hc.1 hc.2, fun c hc => hnp c hc.1 hc.2⟩
  exact ⟨hnp current h0 hc, hpn current h0 hc, hinv.bijOn hnm hpm, hinv.symm.bijOn hpm hnm,
    hinv⟩

/-- Witness of C16 at `int32_t`: `next(previous(0, 6), 6) == 0`, through the wrap to 5. -/
theorem next_previous_witness :
    int32_t.InRange 6 ∧ next int32_t (previous int32_t 0 6) 6 = 0 :=
  ⟨by decide, (next_previous int32_t 0 6 (by decide) (by decide) (by decide) (by decide)).1⟩

/-- C17: for `max ≥ 1` and `current` in `[0, max)`, the branch-based steps agree with the
modular reference definitions: `next(current, max)` is `(current + 1) mod max` and
`previous(current, max)` is `(current + max - 1) mod max`, over the integers. -/
theorem next_previous_eq_modular (T : IntegralType) (current max : Int) (hm : T.InRange max)
    (h1 : 1 ≤ max) (h0 : 0 ≤ current) (hc : current < max) :
    next T current max = nextModular current max ∧
      previous T current max = previousModular current max := by
  rw [next_eq_ite T hm h0 hc, previous_eq_ite T hm h1 h0 hc]
  unfold nextModular previousModular
  constructor
  · split
    · next h => rw [h, Int.emod_self]
    · next h => rw [Int.emod_eq_of_lt (by omega) (by omega)]
  · split
    · next h => rw [h, zero_add, Int.emod_eq_of_lt (by omega) (by omega)]
    · next h =>
      have e : current + max - 1 = (current - 1) + max := by ring
      rw [e, Int.add_emod_self, Int.emod_eq_of_lt (by omega) (by omega)]

/-- Witness of C17 at `int32_t` with `max = 6`, at the indices where each step wraps. -/
theorem next_previous_eq_modular_witness :
    int32_t.InRange 6 ∧ next int32_t 5 6 = nextModular 5 6 ∧
      previous int32_t 0 6 = previousModular 0 6 :=
  ⟨by decide,
    (next_previous_eq_modular int32_t 5 6 (by decide) (by decide) (by decide) (by decide)).1,
    (next_previous_eq_modular int32_t 0 6 (by decide) (by decide) (by decide) (by decide)).2⟩

/-- C18: for a power-of-two alignment `a > 0` of the type and `0 ≤ v1 ≤ v2` with
`v2 + (a - 1)` representable in the type, `align(v1, a) ≤ align(v2, a)`. -/
theorem align_mono (T : IntegralType) (v1 v2 a : Int) (ha : T.InRange a)
    (hpow : ∃ k : Nat, a = 2 ^ k) (hv1 : 0 ≤ v1) (hle : v1 ≤ v2)
    (hno : v2 + (a - 1) ≤ T.maxValue) :
    align T v1 a ≤ align T v2 a := by
  have hapos : 0 < a := by obtain ⟨k, rfl⟩ := hpow; positivity
  rw [align_eq_sub_emod T ha hpow hv1 (by omega),
    align_eq_sub_emod T ha hpow (by omega) hno, Int.emod_def, Int.emod_def, sub_sub_cancel,
    sub_sub_cancel]
  exact Int.mul_le_mul_of_nonneg_left (Int.ediv_le_ediv hapos (by omega)) hapos.le

/-- Witness of C18 at `uint32_t`: `align(13, 8) ≤ align(17, 8)`. -/
theorem align_mono_witness :
    uint32_t.InRange 8 ∧ align uint32_t 13 8 ≤ align uint32_t 17 8 :=
  ⟨by decide,
    align_mono uint32_t 13 17 8 (by decide) ⟨3, by decide⟩ (by decide) (by decide)
      (by decide)⟩

theorem IntegralType.pow_lt_of_inRange (T : IntegralType) {k : Nat}
    (ha : T.InRange ((2 : Int) ^ k)) : 2 ^ k < 2 ^ T.bits := by
  apply T.lt_two_pow_of_natCast_le
  have := ha.2
  exact_mod_cast this

/-- At a power-of-two alignment of the type `align` clears the low bits of the bit pattern of
`value + (alignment - 1)`, whether or not that sum overflows. -/
theorem align_eq_ofBits (T : IntegralType) {a : Int} {k : Nat} (ha : T.InRange a)
    (hk : a = 2 ^ k) (v : Int) :
    align T v a =
      T.ofBits (T.toBits (v + (a - 1)) - T.toBits (v + (a - 1)) % 2 ^ k) := by
  subst hk
  have hapos : (0 : Int) < 2 ^ k := by positivity
  have hkpos : 0 < 2 ^ k := by positivity
  have hr1 : T.InRange ((2 : Int) ^ k - 1) := T.inRange_of_nonneg_of_le ha (by omega) (by omega)
  have hm1 : ((2 : Int) ^ k - 1) = ((2 ^ k - 1 : Nat) : Int) := by
    rw [Nat.cast_sub hkpos]; push_cast; rfl
  have hklt : 2 ^ k < 2 ^ T.bits := T.pow_lt_of_inRange ha
  have hkw : k ≤ T.bits := le_of_lt ((Nat.pow_lt_pow_iff_right (by decide)).1 hklt)
  have hb1 : T.toBits ((2 : Int) ^ k - 1) = 2 ^ k - 1 := by
    rw [hm1]; exact T.toBits_natCast (by omega)
  unfold align
  simp only [IntegralType.sub, IntegralType.add, T.wrap_of_inRange hr1]
  unfold IntegralType.and
  rw [T.toBits_not, hb1, T.toBits_wrap, land_compl_mask hkw (T.toBits_lt _)]

/-- A pattern whose low `k` bits are clear is a fixed point of "add `2 ^ k - 1`, clear the
low `k` bits", and the addition stays below `2 ^ w`. -/
theorem clear_low_bits_fixed {X w k : Nat} (hk : k ≤ w) (hX : X < 2 ^ w) :
    (X - X % 2 ^ k) + (2 ^ k - 1) < 2 ^ w ∧
      ((X - X % 2 ^ k) + (2 ^ k - 1)) - ((X - X % 2 ^ k) + (2 ^ k - 1)) % 2 ^ k =
        X - X % 2 ^ k := by
  have hkpos : 0 < 2 ^ k := by positivity
  have hw : 2 ^ w = 2 ^ k * 2 ^ (w - k) := by
    rw [← pow_add, Nat.add_sub_cancel' hk]
  have e : X - X % 2 ^ k = 2 ^ k * (X / 2 ^ k) := by
    have := Nat.div_add_mod X (2 ^ k); omega
  have hq : X / 2 ^ k < 2 ^ (w - k) := by
    rw [Nat.div_lt_iff_lt_mul hkpos, Nat.mul_comm, ← hw]; exact hX
  have hle : 2 ^ k * (X / 2 ^ k + 1) ≤ 2 ^ k * 2 ^ (w - k) := Nat.mul_le_mul_left _ hq
  rw [Nat.mul_add, Nat.mul_one, ← hw] at hle
  have hmod : (2 ^ k * (X / 2 ^ k) + (2 ^ k - 1)) % 2 ^ k = 2 ^ k - 1 := by
    rw [Nat.mul_add_mod, Nat.mod_eq_of_lt (by omega)]
  rw [e, hmod]
  constructor <;> omega

/-- C14: for every value `v` and every power-of-two alignment `a > 0` of the type,
`align(align(v, a), a) == align(v, a)`, overflow of the first call included. -/
theorem align_idempotent (T : IntegralType) (v a : Int) (ha : T.InRange a)
    (hpow : ∃ k : Nat, a = 2 ^ k) :
    align T (align T v a) a = align T v a := by
  obtain ⟨k, hk⟩ := hpow
  have hklt : 2 ^ k < 2 ^ T.bits := T.pow_lt_of_inRange (hk ▸ ha)
  have hkw : k ≤ T.bits := le_of_lt ((Nat.pow_lt_pow_iff_right (by decide)).1 hklt)
  have hkpos : 0 < 2 ^ k := by positivity
  rw [align_eq_ofBits T ha hk v]
  obtain ⟨hlt, hfix⟩ := clear_low_bits_fixed hkw (T.toBits_lt (v + (a - 1)))
  generalize T.toBits (v + (a - 1)) - T.toBits (v + (a - 1)) % 2 ^ k = Y at hlt hfix
  rw [align_eq_ofBits T ha hk]
  have hX : T.toBits (T.ofBits Y + (a - 1)) = Y + (2 ^ k - 1) := by
    apply T.toBits_eq_of_modEq hlt
    have e : ((Y + (2 ^ k - 1) : Nat) : Int) = (Y : Int) + (a - 1) := by
      rw [hk, Nat.cast_add, Nat.cast_sub hkpos]; push_cast; rfl
    rw [e]
    exact (T.ofBits_modEq Y).add_right _
  rw [hX, hfix]

/-- Witness of C14 at `uint32_t`: `align(align(13, 8), 8) == align(13, 8)`. -/
theorem align_idempotent_witness :
    uint32_t.InRange 8 ∧ align uint32_t (align uint32_t 13 8) 8 = align uint32_t 13 8 :=
  ⟨by decide, align_idempotent uint32_t 13 8 (by decide) ⟨3, by decide⟩⟩

theorem IntegralType.maxValue_eq_pow_sub_one (T : IntegralType) :
    ∃ j : Nat, T.maxValue = 2 ^ j - 1 := by
  unfold maxValue
  split
  · exact ⟨T.bits - 1, rfl⟩
  · exact ⟨T.bits, rfl⟩

/-- A non-negative multiple of a power-of-two alignment of the type can be rounded up without
overflow. -/
theorem no_overflow_of_dvd (T : IntegralType) {v a : Int} (hv : T.InRange v)
    (ha : T.InRange a) (hpow : ∃ k : Nat, a = 2 ^ k) (hd : a ∣ v) :
    v + (a - 1) ≤ T.maxValue := by
  obtain ⟨k, rfl⟩ := hpow
  obtain ⟨j, hj⟩ := T.maxValue_eq_pow_sub_one
  have h1 := hv.2
  have h2 := ha.2
  rw [hj] at h1 h2 ⊢
  have hkj : k < j := by
    have : (2 : Int) ^ k < 2 ^ j := by omega
    have : 2 ^ k < 2 ^ j := by exact_mod_cast this
    exact (Nat.pow_lt_pow_iff_right (by decide)).1 this
  have hdj : (2 : Int) ^ k ∣ 2 ^ j := pow_dvd_pow 2 hkj.le
  have := Int.le_of_dvd (by omega) (Int.dvd_sub hdj hd)
  omega

/-- C12: for every value `v ≥ 0` and every power-of-two alignment `a > 0` of the type,
`align(v, a) == v` if and only if `v` is a multiple of `a`. -/
theorem align_eq_self_iff (T : IntegralType) (v a : Int) (hv : T.InRange v)
    (ha : T.InRange a) (hpow : ∃ k : Nat, a = 2 ^ k) (hv0 : 0 ≤ v) :
    align T v a = v ↔ a ∣ v := by
  have hapos : 0 < a := by obtain ⟨k, rfl⟩ := hpow; positivity
  constructor
  · intro h
    obtain ⟨k, hk⟩ := hpow
    rw [align_eq_ofBits T ha hk v] at h
    have hX := T.toBits_lt (v + (a - 1))
    generalize T.toBits (v + (a - 1)) = X at h hX
    have hkpos : 0 < 2 ^ k := by positivity
    have e : X - X % 2 ^ k = 2 ^ k * (X / 2 ^ k) := by
      have := Nat.div_add_mod X (2 ^ k); omega
    have h' := congrArg T.toBits h
    rw [T.toBits_ofBits (lt_of_le_of_lt (Nat.sub_le _ _) hX), e] at h'
    have hcast := T.natCast_toBits_of_nonneg hv hv0
    rw [← h'] at hcast
    rw [← hcast, hk]
    push_cast
    exact dvd_mul_right _ _
  · rintro ⟨j, rfl⟩
    have hno := no_overflow_of_dvd T hv ha hpow (dvd_mul_right a j)
    rw [align_eq_sub_emod T ha hpow hv0 hno]
    have e : a * j + (a - 1) = (a - 1) + a * j := by ring
    rw [e, Int.add_mul_emod_self_left, Int.emod_eq_of_lt (by omega) (by omega)]
    ring

/-- Witness of C12 at `uint32_t`: `align(16, 8) == 16`, as 8 divides 16. -/
theorem align_eq_self_iff_witness :
    uint32_t.InRange 16 ∧ uint32_t.InRange 8 ∧ align uint32_t 16 8 = 16 ∧
      align uint32_t 13 8 ≠ 13 :=
  ⟨by decide, by decide,
    (align_eq_self_iff uint32_t 16 8 (by decide) (by decide) ⟨3, by decide⟩ (by decide)).2
      ⟨2, by decide⟩,
    by decide⟩

/-- The rational round-up `ceil(v / a)` as an integer division. -/
theorem ceil_div_eq_ediv (v a : Int) (ha : 0 < a) :
    Int.ceil ((v : ℚ) / (a : ℚ)) = (v + (a - 1)) / a := by
  have haq : (0 : ℚ) < (a : ℚ) := by exact_mod_cast ha
  have hm0 := Int.emod_nonneg (v + (a - 1)) ha.ne'
  have hmlt := Int.emod_lt_of_pos (v + (a - 1)) ha
  have hdef := Int.emod_def (v + (a - 1)) a
  rw [Int.ceil_eq_iff]
  constructor
  · rw [lt_div_iff₀ haq]
    have : ((v + (a - 1)) / a - 1) * a < v := by
      have e : ((v + (a - 1)) / a - 1) * a = a * ((v + (a - 1)) / a) - a := by ring
      omega
    exact_mod_cast this
  · rw [div_le_iff₀ haq]
    have : v ≤ (v + (a - 1)) / a * a := by
      have e : (v + (a - 1)) / a * a = a * ((v + (a - 1)) / a) := by ring
      omega
    exact_mod_cast this

/-- On an unsigned type, `align` returns `0` when `value + (alignment - 1)` overflows, and the
mathematical round-up is then exactly `2 ^ bits`. -/
theorem align_unsigned_of_overflow (T : IntegralType) {v a : Int} (hu : T.isSigned = false)
    (hv : T.InRange v) (ha : T.InRange a) (hpow : ∃ k : Nat, a = 2 ^ k)
    (hov : 2 ^ T.bits - a < v) :
    align T v a = 0 ∧ a * ((v + (a - 1)) / a) = 2 ^ T.bits := by
  obtain ⟨k, hk⟩ := hpow
  have hapos : 0 < a := by rw [hk]; positivity
  have hmax : T.maxValue = 2 ^ T.bits - 1 := by simp [IntegralType.maxValue, hu]
  have hv2 := hv.2
  rw [hmax] at hv2
  have hklt : 2 ^ k < 2 ^ T.bits := T.pow_lt_of_inRange (hk ▸ ha)
  have hkw : k ≤ T.bits := le_of_lt ((Nat.pow_lt_pow_iff_right (by decide)).1 hklt)
  constructor
  · rw [align_eq_ofBits T ha hk v]
    have hn0 : 0 ≤ v + (a - 1) - 2 ^ T.bits := by omega
    obtain ⟨n, hn⟩ := Int.eq_ofNat_of_zero_le hn0
    have hnk : n < 2 ^ k := by
      have : (n : Int) < ((2 ^ k : Nat) : Int) := by push_cast; omega
      exact_mod_cast this
    have hX : T.toBits (v + (a - 1)) = n := by
      apply T.toBits_eq_of_modEq (lt_trans hnk hklt)
      rw [← hn]
      exact Int.modEq_iff_dvd.2 (by simp)
    rw [hX, Nat.mod_eq_of_lt hnk, Nat.sub_self, T.ofBits_zero]
  · have hm0 := Int.emod_nonneg (v + (a - 1)) hapos.ne'
    have hmlt := Int.emod_lt_of_pos (v + (a - 1)) hapos
    have hdef := Int.emod_def (v + (a - 1)) a
    have hdw : a ∣ 2 ^ T.bits := by rw [hk]; exact pow_dvd_pow 2 hkw
    have hd : a ∣ a * ((v + (a - 1)) / a) - 2 ^ T.bits := Int.dvd_sub (dvd_mul_right _ _) hdw
    have hab : |a * ((v + (a - 1)) / a) - 2 ^ T.bits| < a := by
      rw [abs_lt]; constructor <;> omega
    have := Int.eq_zero_of_abs_lt_dvd hd hab
    omega

/-- C13: on an unsigned type of `bits` bits, for every value `v` and every power-of-two
alignment `a > 0` of the type, `align(v, a)` is `a * ceil(v / a)` modulo `2 ^ bits`: it is the
round-up `a * ceil(v / a)` when `v ≤ 2 ^ bits - a`, and it wraps to `0`, below `v`, when
`v > 2 ^ bits - a`. -/
theorem align_unsigned_overflow (T : IntegralType) (v a : Int) (hu : T.isSigned = false)
    (hv : T.InRange v) (ha : T.InRange a) (hpow : ∃ k : Nat, a = 2 ^ k) :
    align T v a = (a * Int.ceil ((v : ℚ) / (a : ℚ))) % 2 ^ T.bits ∧
      (v ≤ 2 ^ T.bits - a → align T v a = a * Int.ceil ((v : ℚ) / (a : ℚ))) ∧
      (2 ^ T.bits - a < v → align T v a = 0 ∧ align T v a < v) := by
  have hapos : 0 < a := by obtain ⟨k, rfl⟩ := hpow; positivity
  have hmax : T.maxValue = 2 ^ T.bits - 1 := by simp [IntegralType.maxValue, hu]
  have hv0 : 0 ≤ v := by
    have := hv.1
    simpa [IntegralType.minValue, hu] using this
  rw [ceil_div_eq_ediv v a hapos]
  have hno : v ≤ 2 ^ T.bits - a → align T v a = a * ((v + (a - 1)) / a) := by
    intro hle
    rw [align_eq_sub_emod T ha hpow hv0 (by rw [hmax]; omega), Int.emod_def, sub_sub_cancel]
  have hov := fun h => align_unsigned_of_overflow T hu hv ha hpow h
  have ha2 : a ≤ 2 ^ T.bits - 1 := hmax ▸ ha.2
  refine ⟨?_, hno, fun h => ⟨(hov h).1, by rw [(hov h).1]; omega⟩⟩
  by_cases hle : v ≤ 2 ^ T.bits - a
  · have hm0 := Int.emod_nonneg (v + (a - 1)) hapos.ne'
    have hdef := Int.emod_def (v + (a - 1)) a
    have hq0 : 0 ≤ a * ((v + (a - 1)) / a) :=
      Int.mul_nonneg hapos.le (Int.ediv_nonneg (by omega) hapos.le)
    have hlt : a * ((v + (a - 1)) / a) < 2 ^ T.bits := by omega
    rw [hno hle, Int.emod_eq_of_lt hq0 hlt]
  · rw [(hov (by omega)).1, (hov (by omega)).2, Int.emod_self]

/-- Witness of C13 at `uint32_t`: `align(13, 8)` is the round-up 16, and
`align(4294967295, 8)` wraps to 0. -/
theorem align_unsigned_overflow_witness :
    uint32_t.isSigned = false ∧ uint32_t.InRange 4294967295 ∧ uint32_t.InRange 8 ∧
      align uint32_t 13 8 = 16 ∧
      align uint32_t 13 8 = 8 * Int.ceil (((13 : Int) : ℚ) / ((8 : Int) : ℚ)) ∧
      (align uint32_t 4294967295 8 = 0 ∧ align uint32_t 4294967295 8 < 4294967295) :=
  ⟨rfl, by decide, by decide, by decide,
    (align_unsigned_overflow uint32_t 13 8 rfl (by decide) (by decide) ⟨3, by decide⟩).2.1
      (by decide),
    (align_unsigned_overflow uint32_t 4294967295 8 rfl (by decide) (by decide)
      ⟨3, by decide⟩).2.2 (by decide)⟩

end Aeron
